import Mathlib

/-!
Shallow embedding of the command-palette and shortcut-editing core of
`src/guiguts/misc_dialogs.py` (classes `RecentPlusEntry`, `CommandEditDialog`,
`CommandPaletteDialog`), together with theorems about its ranking, history,
validation and conflict-resolution behaviour.

Python strings are modelled as Lean `String`; Python string operations
(`startswith`, `in`, slicing) are modelled by explicit executable functions on
`List Char` so that every definition evaluates by kernel reduction.
-/

/-! ## String helpers (models of the Python string operations used) -/

/-- Model of Python `s.startswith(pre)` restricted to the first argument being
the prefix candidate: `startsL pre s` is true iff `pre` is a prefix of `s`. -/
def startsL : List Char → List Char → Bool
  | [], _ => true
  | _ :: _, [] => false
  | a :: as, b :: bs => a = b && startsL as bs

/-- Model of Python `needle in hay` (contiguous substring test) on char lists. -/
def withinL (n : List Char) : List Char → Bool
  | [] => n.isEmpty
  | b :: bs => startsL n (b :: bs) || withinL n bs

/-- Python `s.startswith(pre)`. -/
def strStarts (s pre : String) : Bool := startsL pre.toList s.toList

/-- Python `needle in hay` for strings. -/
def strIn (needle hay : String) : Bool := withinL needle.toList hay.toList

/-- Python `s.lower()` (ASCII model via `Char.toLower`; every string the claims
touch is ASCII apart from the separator glyph, which has no case). -/
def strLower (s : String) : String := String.mk (s.toList.map Char.toLower)

/-- Python `s.strip()`: drop leading and trailing whitespace. -/
def strTrim (s : String) : String :=
  String.mk (((s.toList.dropWhile Char.isWhitespace).reverse.dropWhile
    Char.isWhitespace).reverse)

/-- Model of `re.search(r"F\d+$", s)` being a match: `s` ends in `F` followed by
one or more digits (used by `CommandEditDialog.apply_changes`, line 1411). -/
def endsWithFNum (s : String) : Bool :=
  let r := s.toList.reverse
  let digs := r.takeWhile Char.isDigit
  !digs.isEmpty && ((r.drop digs.length).head? == some 'F')

/-- Modelled from the spec: the display form of a label strips the `~`
access-key marker (spec section 4.4: "the character after `~` in the menu
label" is the access key; `display_label`/`display_parent_label` live in
`guiguts/maintext.py`, which is not under `src/`). -/
def stripTilde (s : String) : String := String.mk (s.toList.filter (fun c => c ≠ '~'))

/-- SEP_CHAR from `misc_dialogs.py` line 53. -/
def SEP_CHAR : Char := '―'

/-- Python `SEP_CHAR * n`. -/
def sepRun (n : Nat) : String := String.mk (List.replicate n SEP_CHAR)

/-! ## Data model -/

/-- Modelled from the spec: a `CommandEntry` / `EntryMetadata` (spec section 3:
identity is the `(label, parent_label)` pair, plus the current shortcut string;
the class itself lives in `guiguts/maintext.py`, not under `src/`; the opaque
callable is irrelevant to every claim and omitted). -/
structure EntryMetadata where
  label : String
  parent_label : String
  shortcut : String
deriving DecidableEq, Repr

/-- Modelled from the spec: `EntryMetadata.display_label`. -/
def displayLabel (e : EntryMetadata) : String := stripTilde e.label

/-- Modelled from the spec: `EntryMetadata.display_parent_label`. -/
def displayParentLabel (e : EntryMetadata) : String := stripTilde e.parent_label

/-- `RecentPlusEntry` (misc_dialogs.py lines 1293-1304): recent-ness plus a
command structure. -/
structure RecentPlusEntry where
  recentness : Nat
  entry : EntryMetadata
deriving DecidableEq, Repr

namespace RecentPlusEntry

/-- `RecentPlusEntry.NONRECENT` (line 1296). -/
def NONRECENT : Nat := 10000

/-- `RecentPlusEntry.SEPARATOR` (line 1297). -/
def SEPARATOR : Nat := 1000

/-- `RecentPlusEntry.PREFIXMATCH` (line 1298), as an `Int` score. -/
def PREFIXMATCH : Int := 100

/-- `RecentPlusEntry.SUBSTRMATCH` (line 1299). -/
def SUBSTRMATCH : Int := 90

/-- `RecentPlusEntry.MENUMATCH` (line 1300). -/
def MENUMATCH : Int := 80

end RecentPlusEntry

/-- `CommandPaletteDialog.NUM_HISTORY` (line 1570). -/
def NUM_HISTORY : Nat := 5

/-- Sentinel entry used for the separator row
(`EntryMetadata(SEP_CHAR * 150, SEP_CHAR * 30, SEP_CHAR * 30)`, line 1719). -/
def sepEntry : EntryMetadata := ⟨sepRun 150, sepRun 30, sepRun 30⟩

/-! ## CommandPaletteDialog.update_list (lines 1671-1767) -/

/-- `score_command` (lines 1676-1690). The third-party fuzzy scorer
(`rapidfuzz.process.extractOne`, not repository code) is passed in as the
parameter `fuzzy`; the spec (section 4.1) only fixes that it is a similarity
scaled to `[0, 100]`. -/
def score_command (fuzzy : String → String → Int) (search_text : String)
    (cmd : EntryMetadata) : Int :=
  let label_lower := strLower (displayLabel cmd)
  let menu_lower := strLower (displayParentLabel cmd)
  if strStarts label_lower search_text then RecentPlusEntry.PREFIXMATCH
  else if strIn search_text label_lower then RecentPlusEntry.SUBSTRMATCH
  else if strStarts menu_lower search_text then RecentPlusEntry.MENUMATCH
  else fuzzy search_text (menu_lower ++ " " ++ label_lower)

/-- `recent_key` (lines 1692-1707): sort key
`(recent_band, -score, recentness, label.lower())`. -/
def recent_key (fuzzy : String → String → Int) (search_text : String)
    (rpe : RecentPlusEntry) : Nat × Int × Nat × String :=
  let score := score_command fuzzy search_text rpe.entry
  let recent_band : Nat :=
    if rpe.recentness < RecentPlusEntry.SEPARATOR then
      (if score ≥ RecentPlusEntry.MENUMATCH then 0 else 2)
    else if rpe.recentness = RecentPlusEntry.SEPARATOR then 1
    else 2
  (recent_band, -score, rpe.recentness, strLower (displayLabel rpe.entry))

/-- Lexicographic step: compare by one component, falling through to `rest` on
equality. -/
def lexStep {α : Type} [DecidableEq α] (lt : α → α → Bool) (x y : α) (rest : Bool) : Bool :=
  if x = y then rest else lt x y

/-- Boolean strict order on `Nat`. -/
def natLtB (a b : Nat) : Bool := decide (a < b)

/-- Boolean strict order on `Int`. -/
def intLtB (a b : Int) : Bool := decide (a < b)

/-- Boolean lexicographic order on char lists (the order Python uses to compare
the string component of sort-key tuples). -/
def charsLe : List Char → List Char → Bool
  | [], _ => true
  | _ :: _, [] => false
  | a :: as, b :: bs => if a = b then charsLe as bs else decide (a < b)

/-- Python's ascending comparison on the 4-tuples returned by `recent_key`. -/
def keyLe (x y : Nat × Int × Nat × String) : Bool :=
  lexStep natLtB x.1 y.1 <|
    lexStep intLtB x.2.1 y.2.1 <|
      lexStep natLtB x.2.2.1 y.2.2.1 <|
        charsLe x.2.2.2.toList y.2.2.2.toList

/-- Stable insertion into an ascending list: the model of Python's stable
`list.sort` places an earlier element before later elements with equal keys,
which is exactly what this insertion does. -/
def insertLe {α : Type} (le : α → α → Bool) (x : α) : List α → List α
  | [] => [x]
  | y :: ys => if le x y then x :: y :: ys else y :: insertLe le x ys

/-- Stable ascending sort (model of Python `list.sort(key=...)`). -/
def sortLe {α : Type} (le : α → α → Bool) : List α → List α
  | [] => []
  | x :: xs => insertLe le x (sortLe le xs)

/-- One pass of the recentness-assignment loop body (lines 1729-1736): set
`recentness := r` on the first list element whose entry has the given label and
parent label, mirroring the inner `for`/`break`. -/
def setFirst (label menu : String) (r : Nat) : List RecentPlusEntry → List RecentPlusEntry
  | [] => []
  | x :: xs =>
    if x.entry.label = label ∧ x.entry.parent_label = menu then
      { x with recentness := r } :: xs
    else
      x :: setFirst label menu r xs

/-- The full `enumerate(recent_commands)` loop (lines 1729-1736), starting at
index `i`. -/
def assignRecent (i : Nat) (hist : List (String × String))
    (l : List RecentPlusEntry) : List RecentPlusEntry :=
  match hist with
  | [] => l
  | (label, menu) :: rest => assignRecent (i + 1) rest (setFirst label menu i l)

/-- The list built before sorting (lines 1710-1726): the separator wrapper,
added only when the history is non-empty, followed by every command wrapped
with `NONRECENT`. -/
def baseEntries (hist : List (String × String)) (commands : List EntryMetadata) :
    List RecentPlusEntry :=
  (if hist.isEmpty then [] else [⟨RecentPlusEntry.SEPARATOR, sepEntry⟩])
    ++ commands.map (fun c => ⟨RecentPlusEntry.NONRECENT, c⟩)

/-- The comparison `filtered_entries.sort(key=recent_key)` sorts by. -/
def paletteLe (fuzzy : String → String → Int) (q : String) (x y : RecentPlusEntry) :
    Bool :=
  keyLe (recent_key fuzzy q x) (recent_key fuzzy q y)

/-- Lines 1744-1764: if the sort placed the separator first, it is not
displayed and is removed from `filtered_entries`. -/
def suppressLeadingSep (l : List RecentPlusEntry) : List RecentPlusEntry :=
  match l with
  | [] => []
  | s :: rest => if s.recentness = RecentPlusEntry.SEPARATOR then rest else s :: rest

/-- `CommandPaletteDialog.update_list` (lines 1671-1767), returning the final
`filtered_entries` sequence (after the sort and after a leading separator has
been suppressed and removed). `hist` is the persisted
`PrefKey.COMMAND_PALETTE_HISTORY` list of `(label, parent_label)` pairs. -/
def update_list (fuzzy : String → String → Int) (hist : List (String × String))
    (commands : List EntryMetadata) (query : String) : List RecentPlusEntry :=
  let search_text := strTrim (strLower query)
  suppressLeadingSep
    (sortLe (paletteLe fuzzy search_text) (assignRecent 0 hist (baseEntries hist commands)))

/-- Modelled from the spec: a concrete instance of the fuzzy similarity
(section 4.1: "approximate string similarity measure ... scaled to [0,100]";
the actual scorer is the third-party `rapidfuzz` library, not repository code).
Every similarity measure yields 100 on identical strings — in particular the
real scorer does — and this model returns the 0 floor otherwise. -/
def fuzzy_model (q s : String) : Int := if q = s then 100 else 0

/-! ## CommandPaletteDialog.add_to_history (lines 1852-1866) -/

/-- `add_to_history` (lines 1852-1866): remove an existing equal pair, insert at
the front, truncate to `NUM_HISTORY`; the returned list is the value written to
the persisted preference (`preferences.set`), so persistence after every record
holds by construction. -/
def add_to_history (hist : List (String × String)) (label parent_label : String) :
    List (String × String) :=
  ((label, parent_label) :: hist.erase (label, parent_label)).take NUM_HISTORY

/-! ## CommandPaletteDialog.move_in_list (lines 1814-1834) -/

/-- Outcome of one `move_in_list` call. -/
inductive MoveOutcome where
  | select (idx : Int)
  | focusEntry
  | noop
  | indexError
deriving DecidableEq, Repr

/-- Python sequence indexing `l[i]` with negative-index wraparound; `none`
models the `IndexError` raised when the index is out of range either way. -/
def pyIndex {α : Type} (l : List α) (i : Int) : Option α :=
  if 0 ≤ i ∧ i < l.length then l.get? i.toNat
  else if -(l.length : Int) ≤ i ∧ i < 0 then l.get? (i + l.length).toNat
  else none

/-- `move_in_list` (lines 1814-1834). `hasSelection` models whether
`self.list.selection()` is non-empty, `cur` the index of the selected row; the
rows of the tree view correspond one-to-one to `l` (the `filtered_entries`
produced by `update_list`), with the separator row tagged exactly when
`recentness = SEPARATOR`. -/
def move_in_list (l : List RecentPlusEntry) (hasSelection : Bool) (cur : Nat)
    (dir : Int) : MoveOutcome :=
  if !hasSelection then .noop
  else
    let newIndex : Int := (cur : Int) + dir
    if 0 ≤ newIndex ∧ newIndex < l.length then
      match pyIndex l newIndex with
      | none => .indexError
      | some item =>
        if item.recentness = RecentPlusEntry.SEPARATOR then
          match pyIndex l (newIndex + dir) with
          | none => .indexError
          | some _ => .select (newIndex + dir)
        else .select newIndex
    else if newIndex < 0 then .focusEntry
    else .noop

/-! ## CommandEditDialog: key capture state (lines 1370-1377, 1530-1563) -/

/-- The keysyms that count as modifiers: the keys of
`CommandEditDialog.MODIFIER_KEYS` (lines 1313-1324). Membership of a keysym in
the dict is platform-independent (only the mapped display names differ). -/
def MODIFIER_KEYSYMS : List String :=
  ["Shift_L", "Shift_R", "Control_L", "Control_R", "Alt_L", "Alt_R",
   "Meta_L", "Meta_R", "Option_L", "Option_R"]

/-- The mutable capture state of a `CommandEditDialog`: the set of
currently-pressed modifier keysyms, the internal accelerator string
(`self._shortcut`) and its display variable (`self.shortcut_variable`). -/
structure EditDialogState where
  pressed_modifiers : List String
  shortcut : String
  shortcut_display : String
deriving DecidableEq, Repr

/-- `key_release` (lines 1558-1563): discard a released modifier keysym from
the pressed set; every other field is untouched. -/
def key_release (st : EditDialogState) (keysym : String) : EditDialogState :=
  if keysym ∈ MODIFIER_KEYSYMS then
    { st with pressed_modifiers := st.pressed_modifiers.filter (fun x => x ≠ keysym) }
  else st

/-- The `<FocusOut>` binding (line 1377): `self.pressed_modifiers.clear()`. -/
def focus_out (st : EditDialogState) : EditDialogState :=
  { st with pressed_modifiers := [] }

/-! ## CommandEditDialog.apply_changes (lines 1399-1528) -/

/-- The validation failures of `apply_changes` lines 1407-1453, in source
order. -/
inductive ShortcutError where
  | noModifier
  | optionTab
  | f1Reserved
  | helpReserved
  | clipboardReserved
deriving DecidableEq, Repr

/-- `"Cmd" if is_mac() else "Ctrl"` (line 1445). -/
def ctrlCmd (mac : Bool) : String := if mac then "Cmd" else "Ctrl"

/-- The rule checks of `apply_changes` on the display form of the candidate
shortcut (lines 1407-1453), first failure wins; `none` means all rules pass. -/
def validateDisplayShortcut (mac : Bool) (display_shortcut : String) :
    Option ShortcutError :=
  if display_shortcut ≠ "" ∧
      ¬(strIn "Ctrl" display_shortcut ∨ strIn "Cmd" display_shortcut ∨
        strIn "Alt" display_shortcut) ∧
      ¬ endsWithFNum display_shortcut = true then
    some .noModifier
  else if strIn "option" (strLower display_shortcut) ∨
      strIn "tab" (strLower display_shortcut) then
    some .optionTab
  else if display_shortcut = "F1" then some .f1Reserved
  else if display_shortcut = "Cmd+Shift+?" then some .helpReserved
  else if display_shortcut = ctrlCmd mac ++ "+A" ∨
      display_shortcut = ctrlCmd mac ++ "+C" ∨
      display_shortcut = ctrlCmd mac ++ "+V" ∨
      display_shortcut = ctrlCmd mac ++ "+X" then
    some .clipboardReserved
  else none

/-- `re.fullmatch(r"Alt\+(.)", s)` (line 1505): exactly `Alt+` followed by one
character, returning that character. -/
def altSingle (s : String) : Option Char :=
  match s.toList with
  | ['A', 'l', 't', '+', c] => some c
  | _ => none

/-- The environment a shortcut edit runs in. `display` is the first component
of `process_accel` and `bindable` the Tk bind test on its second component
(both in `guiguts/utilities.py` / Tk, outside `src/`, so modelled from the spec
as abstract platform functions: spec sections 4.3 and 4.4 rule 6); `topMenus`
are the labels of `menubar_metadata().entries` (with `~` access-key markers). -/
structure ShortcutEnv where
  is_mac : Bool
  display : String → String
  bindable : String → Bool
  topMenus : List String

/-- Modelled from the spec: the persisted shortcut assignment table
(`KeyboardShortcutsDict`, in `guiguts/maintext.py`, not under `src/`; spec
section 6: a mapping of label/menu pair to shortcut string). -/
def ShortcutTable : Type := List ((String × String) × String)

instance : DecidableEq ShortcutTable := by
  unfold ShortcutTable
  infer_instance

/-- Modelled from the spec: `KeyboardShortcutsDict.set_shortcut`: update the
mapping at key `(label, parent_label)`. -/
def set_shortcut (label parent_label shortcut : String) (t : ShortcutTable) :
    ShortcutTable :=
  ((label, parent_label), shortcut) ::
    t.filter (fun kv => kv.1 ≠ (label, parent_label))

/-- Modelled from the spec: `menubar_metadata().metadata_from_shortcut`
(spec section 6: `find_by_shortcut(display_string)`): the first entry currently
holding a shortcut whose display form equals the given string. -/
def metadata_from_shortcut (display : String → String)
    (entries : List EntryMetadata) (ds : String) : Option EntryMetadata :=
  entries.find? (fun e => e.shortcut ≠ "" ∧ display e.shortcut = ds)

/-- The state `apply_changes` reads and writes: the registry entries (whose
`shortcut` fields it mutates) and the persisted shortcut table. -/
structure EditState where
  entries : List EntryMetadata
  saved : ShortcutTable
deriving DecidableEq

/-- Write a shortcut value into every registry entry with the given identity
(the registry holds at most one; mutation of `command.shortcut` /
`self.cmd.shortcut` aliases into the registry). -/
def setEntryShortcut (label parent_label s : String) (l : List EntryMetadata) :
    List EntryMetadata :=
  l.map (fun e =>
    if e.label = label ∧ e.parent_label = parent_label then
      { e with shortcut := s }
    else e)

/-- Look up the registry entry with the given identity. -/
def findEntry (label parent_label : String) (l : List EntryMetadata) :
    Option EntryMetadata :=
  l.find? (fun e => e.label = label ∧ e.parent_label = parent_label)

/-- Whether a ranked row is the separator row (`recentness == SEPARATOR`,
line 1747). -/
def isSepRow (r : RecentPlusEntry) : Bool :=
  decide (r.recentness = RecentPlusEntry.SEPARATOR)

/-- `f"{menu}|{label}" if menu else label` built from an entry's display labels
(lines 1474-1476 via `menu_variable`/`label_variable`, and lines 1486-1488). -/
def assignOf (e : EntryMetadata) : String :=
  let menu := displayParentLabel e
  let label := displayLabel e
  if menu ≠ "" then menu ++ "|" ++ label else label

/-- The commit tail of `apply_changes` (lines 1517-1528): write the new
shortcut into the table, save the table to prefs, and update the entry's
metadata. -/
def commitShortcut (cmd : EntryMetadata) (new_shortcut : String)
    (entries : List EntryMetadata) (dict : ShortcutTable) : Bool × EditState :=
  let dict2 := set_shortcut cmd.label cmd.parent_label new_shortcut dict
  (true,
    { entries := setEntryShortcut cmd.label cmd.parent_label new_shortcut entries,
      saved := dict2 })

/-- `CommandEditDialog.apply_changes` (lines 1399-1528). `cmd` is the entry
being edited (`self.cmd`), `new_shortcut` the captured accelerator
(`self.shortcut`); `confirmReassign` and `confirmMenuKey` are the user's
answers to the two `askyesno` confirmation dialogs. Returns the success flag
and the resulting state; on every `return False` path before the commit the
state is the unchanged input state. -/
def apply_changes (env : ShortcutEnv) (st : EditState) (cmd : EntryMetadata)
    (new_shortcut : String) (confirmReassign confirmMenuKey : Bool) :
    Bool × EditState :=
  let ds := env.display new_shortcut
  match validateDisplayShortcut env.is_mac ds with
  | some _ => (false, st)
  | none =>
    if new_shortcut ≠ "" ∧ ¬ env.bindable new_shortcut = true then (false, st)
    else
      let dict0 := st.saved
      let new_assign := assignOf cmd
      match metadata_from_shortcut env.display st.entries ds with
      | some other =>
        if assignOf other ≠ new_assign then
          if ¬ confirmReassign then (false, st)
          else
            let entries1 := setEntryShortcut other.label other.parent_label "" st.entries
            let dict1 := set_shortcut other.label other.parent_label "" dict0
            commitShortcut cmd new_shortcut entries1 dict1
        else commitShortcut cmd new_shortcut st.entries dict0
      | none =>
        let altHit : Bool :=
          match altSingle ds with
          | some c => env.topMenus.any (fun m => strIn (String.mk ['~', c]) m)
          | none => false
        if env.is_mac = false ∧ altHit = true ∧ confirmMenuKey = false then
          (false, st)
        else commitShortcut cmd new_shortcut st.entries dict0

/-! ## Order lemmas for the sort key -/

theorem charsLe_refl (l : List Char) : charsLe l l = true := by
  induction l with
  | nil => rfl
  | cons a as ih => simp [charsLe, ih]

theorem charsLe_total (l m : List Char) : (charsLe l m || charsLe m l) = true := by
  induction l generalizing m with
  | nil => simp [charsLe]
  | cons a as ih =>
    cases m with
    | nil => simp [charsLe]
    | cons b bs =>
      by_cases hab : a = b
      · subst hab
        simpa [charsLe] using ih bs
      · have : a < b ∨ b < a := lt_or_gt_of_ne hab
        rcases this with h | h
        · simp [charsLe, hab, Ne.symm hab, h]
        · simp [charsLe, hab, Ne.symm hab, h]

theorem charsLe_trans (l m n : List Char) (h1 : charsLe l m = true)
    (h2 : charsLe m n = true) : charsLe l n = true := by
  induction l generalizing m n with
  | nil => rfl
  | cons a as ih =>
    cases m with
    | nil => simp [charsLe] at h1
    | cons b bs =>
      cases n with
      | nil => simp [charsLe] at h2
      | cons c cs =>
        by_cases hab : a = b <;> by_cases hbc : b = c
        · subst hab; subst hbc
          simp only [charsLe, if_pos rfl] at *
          exact ih bs cs h1 h2
        · subst hab
          simp only [charsLe, if_pos rfl, if_neg hbc] at *
          simp [hbc, h2]
        · subst hbc
          simp only [charsLe, if_pos rfl, if_neg hab] at *
          simp [hab, h1]
        · simp only [charsLe, if_neg hab, if_neg hbc] at h1 h2
          have h1' : a < b := of_decide_eq_true h1
          have h2' : b < c := of_decide_eq_true h2
          have hac : a < c := lt_trans h1' h2'
          simp [charsLe, ne_of_lt hac, hac]

theorem lexStep_refl {α : Type} [DecidableEq α] (lt : α → α → Bool) (x : α) {r : Bool}
    (hr : r = true) : lexStep lt x x r = true := by
  simp [lexStep, hr]

theorem lexStep_total {α : Type} [DecidableEq α] {lt : α → α → Bool}
    (htot : ∀ a b : α, a ≠ b → (lt a b || lt b a) = true) (x y : α) {r s : Bool}
    (hrs : (r || s) = true) : (lexStep lt x y r || lexStep lt y x s) = true := by
  by_cases hxy : x = y
  · subst hxy
    simpa [lexStep] using hrs
  · simp only [lexStep, if_neg hxy, if_neg (Ne.symm hxy)]
    exact htot x y hxy

theorem lexStep_trans {α : Type} [DecidableEq α] {lt : α → α → Bool}
    (htrans : ∀ a b c : α, lt a b = true → lt b c = true → lt a c = true)
    (hasym : ∀ a b : α, lt a b = true → lt b a = true → False)
    {x y z : α} {r1 r2 r3 : Bool}
    (h1 : lexStep lt x y r1 = true) (h2 : lexStep lt y z r2 = true)
    (hr : r1 = true → r2 = true → r3 = true) : lexStep lt x z r3 = true := by
  by_cases hxy : x = y <;> by_cases hyz : y = z
  · subst hxy; subst hyz
    simp only [lexStep, if_pos rfl] at *
    exact hr h1 h2
  · subst hxy
    simp only [lexStep, if_pos rfl, if_neg hyz] at *
    simp [hyz, h2]
  · subst hyz
    simp only [lexStep, if_pos rfl, if_neg hxy] at *
    simp [hxy, h1]
  · simp only [lexStep, if_neg hxy, if_neg hyz] at h1 h2
    have hlt : lt x z = true := htrans _ _ _ h1 h2
    have hxz : x ≠ z := by
      intro h
      subst h
      exact hasym _ _ h1 h2
    simp [lexStep, hxz, hlt]

theorem natLtB_trans : ∀ a b c : Nat, natLtB a b = true → natLtB b c = true →
    natLtB a c = true := by
  intro a b c h1 h2
  simp only [natLtB, decide_eq_true_eq] at *
  omega

theorem natLtB_asym : ∀ a b : Nat, natLtB a b = true → natLtB b a = true → False := by
  intro a b h1 h2
  simp only [natLtB, decide_eq_true_eq] at *
  omega

theorem natLtB_total : ∀ a b : Nat, a ≠ b → (natLtB a b || natLtB b a) = true := by
  intro a b h
  simp only [natLtB, Bool.or_eq_true, decide_eq_true_eq]
  omega

theorem intLtB_trans : ∀ a b c : Int, intLtB a b = true → intLtB b c = true →
    intLtB a c = true := by
  intro a b c h1 h2
  simp only [intLtB, decide_eq_true_eq] at *
  omega

theorem intLtB_asym : ∀ a b : Int, intLtB a b = true → intLtB b a = true → False := by
  intro a b h1 h2
  simp only [intLtB, decide_eq_true_eq] at *
  omega

theorem intLtB_total : ∀ a b : Int, a ≠ b → (intLtB a b || intLtB b a) = true := by
  intro a b h
  simp only [intLtB, Bool.or_eq_true, decide_eq_true_eq]
  omega

theorem keyLe_refl (x : Nat × Int × Nat × String) : keyLe x x = true :=
  lexStep_refl _ _ (lexStep_refl _ _ (lexStep_refl _ _ (charsLe_refl _)))

theorem keyLe_total (x y : Nat × Int × Nat × String) : (keyLe x y || keyLe y x) = true :=
  lexStep_total natLtB_total _ _ <|
    lexStep_total intLtB_total _ _ <|
      lexStep_total natLtB_total _ _ <| charsLe_total _ _

theorem keyLe_trans (x y z : Nat × Int × Nat × String)
    (hxy : keyLe x y = true) (hyz : keyLe y z = true) : keyLe x z = true :=
  lexStep_trans natLtB_trans natLtB_asym hxy hyz fun h1 h2 =>
    lexStep_trans intLtB_trans intLtB_asym h1 h2 fun h3 h4 =>
      lexStep_trans natLtB_trans natLtB_asym h3 h4 fun h5 h6 =>
        charsLe_trans _ _ _ h5 h6

/-! ## Sorting lemmas -/

theorem perm_insertLe {α : Type} (le : α → α → Bool) (x : α) (l : List α) :
    (insertLe le x l).Perm (x :: l) := by
  induction l with
  | nil => simp [insertLe]
  | cons y ys ih =>
    simp only [insertLe]
    split
    · exact List.Perm.refl _
    · exact (List.Perm.cons y ih).trans (List.Perm.swap x y ys)

theorem perm_sortLe {α : Type} (le : α → α → Bool) (l : List α) :
    (sortLe le l).Perm l := by
  induction l with
  | nil => exact List.Perm.refl _
  | cons x xs ih =>
    exact (perm_insertLe le x (sortLe le xs)).trans (List.Perm.cons x ih)

theorem mem_insertLe {α : Type} {le : α → α → Bool} {x z : α} {l : List α}
    (h : z ∈ insertLe le x l) : z = x ∨ z ∈ l := by
  have := (perm_insertLe le x l).mem_iff.mp h
  simpa using this

theorem pairwise_insertLe {α : Type} {le : α → α → Bool}
    (htrans : ∀ a b c, le a b = true → le b c = true → le a c = true)
    (htotal : ∀ a b, (le a b || le b a) = true)
    {x : α} {l : List α} (hl : l.Pairwise (fun a b => le a b = true)) :
    (insertLe le x l).Pairwise (fun a b => le a b = true) := by
  induction l with
  | nil => simp [insertLe]
  | cons y ys ih =>
    rw [List.pairwise_cons] at hl
    obtain ⟨hy, hys⟩ := hl
    simp only [insertLe]
    split
    · rename_i hxy
      rw [List.pairwise_cons]
      constructor
      · intro z hz
        rcases List.mem_cons.mp hz with rfl | hz
        · exact hxy
        · exact htrans _ _ _ hxy (hy z hz)
      · rw [List.pairwise_cons]
        exact ⟨hy, hys⟩
    · rename_i hxy
      have hyx : le y x = true := by
        have := htotal x y
        simp [hxy] at this
        exact this
      rw [List.pairwise_cons]
      constructor
      · intro z hz
        rcases mem_insertLe hz with rfl | hz
        · exact hyx
        · exact hy z hz
      · exact ih hys

theorem pairwise_sortLe {α : Type} {le : α → α → Bool}
    (htrans : ∀ a b c, le a b = true → le b c = true → le a c = true)
    (htotal : ∀ a b, (le a b || le b a) = true) (l : List α) :
    (sortLe le l).Pairwise (fun a b => le a b = true) := by
  induction l with
  | nil => simp [sortLe]
  | cons x xs ih => exact pairwise_insertLe htrans htotal ih

theorem pairwise_index_lt {α : Type} {le : α → α → Bool} {l : List α}
    (hp : l.Pairwise (fun a b => le a b = true)) {i j : Nat} {x y : α}
    (hi : l.get? i = some x) (hj : l.get? j = some y)
    (hxy : le y x = false) (hrefl : le x x = true) : i < j := by
  by_contra hc
  push_neg at hc
  rcases Nat.lt_or_ge j i with hji | hij
  · obtain ⟨hilt, hgi⟩ := List.get?_eq_some.mp hi
    obtain ⟨hjlt, hgj⟩ := List.get?_eq_some.mp hj
    have := List.pairwise_iff_get.mp hp ⟨j, hjlt⟩ ⟨i, hilt⟩ hji
    rw [hgj, hgi, hxy] at this
    exact Bool.false_ne_true this
  · have hij' : i = j := le_antisymm hij hc
    subst hij'
    rw [hi] at hj
    injection hj with hj
    subst hj
    rw [hrefl] at hxy
    exact Bool.false_ne_true hxy.symm

/-! ## Lemmas about the recentness-assignment loop -/

theorem mem_setFirst_of_not_match {label menu : String} {r : Nat}
    {l : List RecentPlusEntry} {x : RecentPlusEntry}
    (hx : x ∈ setFirst label menu r l)
    (hne : ¬(x.entry.label = label ∧ x.entry.parent_label = menu)) : x ∈ l := by
  induction l with
  | nil => simpa [setFirst] using hx
  | cons h t ih =>
    by_cases hm : h.entry.label = label ∧ h.entry.parent_label = menu
    · rw [setFirst, if_pos hm] at hx
      rcases List.mem_cons.mp hx with rfl | hx
      · exact absurd hm hne
      · exact List.mem_cons_of_mem _ hx
    · rw [setFirst, if_neg hm] at hx
      rcases List.mem_cons.mp hx with rfl | hx
      · exact List.mem_cons_self _ _
      · exact List.mem_cons_of_mem _ (ih hx)

theorem mem_assignRecent_of_not_recent {hist : List (String × String)} {i : Nat}
    {l : List RecentPlusEntry} {x : RecentPlusEntry}
    (hx : x ∈ assignRecent i hist l)
    (hne : (x.entry.label, x.entry.parent_label) ∉ hist) : x ∈ l := by
  induction hist generalizing i l with
  | nil => simpa [assignRecent] using hx
  | cons p rest ih =>
    obtain ⟨lab, men⟩ := p
    rw [assignRecent] at hx
    have h1 : x ∈ setFirst lab men i l :=
      ih hx (fun hm => hne (List.mem_cons_of_mem _ hm))
    refine mem_setFirst_of_not_match h1 ?_
    rintro ⟨h2, h3⟩
    apply hne
    rw [h2, h3]
    exact List.mem_cons_self _ _

theorem countP_setFirst_le (label menu : String) (r : Nat)
    (hr : ¬ r = RecentPlusEntry.SEPARATOR) (l : List RecentPlusEntry) :
    (setFirst label menu r l).countP isSepRow ≤ l.countP isSepRow := by
  induction l with
  | nil => simp [setFirst]
  | cons h t ih =>
    by_cases hm : h.entry.label = label ∧ h.entry.parent_label = menu
    · rw [setFirst, if_pos hm]
      have hfalse : isSepRow { h with recentness := r } = false := by
        simp [isSepRow, hr]
      simp only [List.countP_cons, hfalse]
      by_cases hsep : isSepRow h = true <;> simp [hsep] <;> omega
    · rw [setFirst, if_neg hm]
      simp only [List.countP_cons]
      have h2 := ih
      by_cases hsep : isSepRow h = true <;> simp [hsep] <;> omega

theorem countP_assignRecent_le (hist : List (String × String)) (i : Nat)
    (l : List RecentPlusEntry)
    (h : ∀ j, j < hist.length → i + j ≠ RecentPlusEntry.SEPARATOR) :
    (assignRecent i hist l).countP isSepRow ≤ l.countP isSepRow := by
  induction hist generalizing i l with
  | nil => simp [assignRecent]
  | cons p rest ih =>
    obtain ⟨lab, men⟩ := p
    rw [assignRecent]
    have step1 : (assignRecent (i + 1) rest (setFirst lab men i l)).countP isSepRow ≤
        (setFirst lab men i l).countP isSepRow := by
      refine ih _ _ ?_
      intro j hj
      have := h (j + 1) (by simpa using Nat.succ_lt_succ hj)
      omega
    have step2 : (setFirst lab men i l).countP isSepRow ≤ l.countP isSepRow := by
      refine countP_setFirst_le _ _ _ ?_ _
      have := h 0 (by simp)
      omega
    omega

/-! ## Lemmas about the persisted shortcut table -/

theorem lookup_set_shortcut_same (l p s : String) (t : ShortcutTable) :
    List.lookup (l, p) (set_shortcut l p s t) = some s := by
  simp [set_shortcut, List.lookup]

theorem lookup_filter_ne {k k' : String × String} (t : ShortcutTable)
    (hne : k ≠ k') :
    List.lookup k (t.filter (fun kv => kv.1 ≠ k')) = List.lookup k t := by
  induction t with
  | nil => rfl
  | cons kv t ih =>
    obtain ⟨k0, v0⟩ := kv
    rw [List.filter_cons]
    by_cases h0 : k0 = k'
    · subst h0
      have hbeq : (k == k0) = false := by
        simpa using hne
      have hcond : (decide ((k0, v0).1 ≠ k0)) = false := by simp
      rw [hcond]
      simp only [Bool.false_eq_true, if_false, List.lookup, hbeq]
      exact ih
    · have hcond : (decide ((k0, v0).1 ≠ k')) = true := by simpa using h0
      rw [hcond]
      simp only [if_true, List.lookup]
      by_cases hk : k = k0
      · subst hk
        simp
      · have hbeq : (k == k0) = false := by
          simpa using hk
        rw [hbeq]
        exact ih

theorem lookup_set_shortcut_other {k : String × String} (l p s : String)
    (t : ShortcutTable) (hne : k ≠ (l, p)) :
    List.lookup k (set_shortcut l p s t) = List.lookup k t := by
  have hbeq : (k == (l, p)) = false := by simpa using hne
  simp only [set_shortcut, List.lookup, hbeq]
  exact lookup_filter_ne t hne

/-! ## Lemmas about registry entry updates -/

theorem setEntryShortcut_keeps_identity (c d s : String) (e : EntryMetadata) :
    ((if e.label = c ∧ e.parent_label = d then { e with shortcut := s } else e).label
        = e.label) ∧
    ((if e.label = c ∧ e.parent_label = d then { e with shortcut := s } else e).parent_label
        = e.parent_label) := by
  split <;> simp

theorem findEntry_setEntryShortcut (a b c d s : String) (l : List EntryMetadata) :
    findEntry a b (setEntryShortcut c d s l) =
      (findEntry a b l).map
        (fun e => if e.label = c ∧ e.parent_label = d then { e with shortcut := s } else e) := by
  induction l with
  | nil => rfl
  | cons h t ih =>
    obtain ⟨hlab, hpar⟩ := setEntryShortcut_keeps_identity c d s h
    by_cases hp : h.label = a ∧ h.parent_label = b
    · have hp' : ((if h.label = c ∧ h.parent_label = d then { h with shortcut := s }
          else h).label = a ∧
          (if h.label = c ∧ h.parent_label = d then { h with shortcut := s }
          else h).parent_label = b) := by
        rw [hlab, hpar]
        exact hp
      simp only [setEntryShortcut, List.map, findEntry]
      rw [List.find?_cons_of_pos _ (by simpa using hp'),
        List.find?_cons_of_pos _ (by simpa using hp)]
      rfl
    · have hp' : ¬((if h.label = c ∧ h.parent_label = d then { h with shortcut := s }
          else h).label = a ∧
          (if h.label = c ∧ h.parent_label = d then { h with shortcut := s }
          else h).parent_label = b) := by
        rw [hlab, hpar]
        exact hp
      simp only [setEntryShortcut, List.map, findEntry] at *
      rw [List.find?_cons_of_neg _ (by simpa using hp'),
        List.find?_cons_of_neg _ (by simpa using hp)]
      exact ih

/-! ## Evaluation lemmas for the sort key -/

theorem recent_key_nonrecent (fuzzy : String → String → Int) (q : String)
    {x : RecentPlusEntry} (hx : x.recentness = RecentPlusEntry.NONRECENT) :
    recent_key fuzzy q x =
      (2, -(score_command fuzzy q x.entry), RecentPlusEntry.NONRECENT,
        strLower (displayLabel x.entry)) := by
  rw [recent_key, hx]
  norm_num [RecentPlusEntry.NONRECENT, RecentPlusEntry.SEPARATOR]

theorem recent_key_sep (fuzzy : String → String → Int) (q : String)
    {x : RecentPlusEntry} (hx : x.recentness = RecentPlusEntry.SEPARATOR) :
    recent_key fuzzy q x =
      (1, -(score_command fuzzy q x.entry), RecentPlusEntry.SEPARATOR,
        strLower (displayLabel x.entry)) := by
  rw [recent_key, hx]
  norm_num [RecentPlusEntry.SEPARATOR]

theorem keyLe_false_of_fst_lt {a1 a2 : Nat} {n1 n2 : Int} {r1 r2 : Nat}
    {s1 s2 : String} (h : a2 < a1) :
    keyLe (a1, n1, r1, s1) (a2, n2, r2, s2) = false := by
  have hne : a1 ≠ a2 := by omega
  simp only [keyLe, lexStep, if_neg hne, natLtB]
  simpa using by omega

theorem keyLe_false_of_snd_lt {a : Nat} {n1 n2 : Int} {r1 r2 : Nat}
    {s1 s2 : String} (h : n2 < n1) :
    keyLe (a, n1, r1, s1) (a, n2, r2, s2) = false := by
  have hne : n1 ≠ n2 := by omega
  simp only [keyLe, lexStep, if_pos rfl, if_neg hne, intLtB]
  simpa using by omega

/-! ## Score bound -/

theorem score_command_lt_prefix (fuzzy : String → String → Int) (q : String)
    (B : EntryMetadata)
    (hB : strStarts (strLower (displayLabel B)) q = false)
    (hf : fuzzy q (strLower (displayParentLabel B) ++ " " ++ strLower (displayLabel B)) <
      RecentPlusEntry.PREFIXMATCH) :
    score_command fuzzy q B < RecentPlusEntry.PREFIXMATCH := by
  simp only [score_command, hB, Bool.false_eq_true, if_false]
  split
  · norm_num [RecentPlusEntry.SUBSTRMATCH, RecentPlusEntry.PREFIXMATCH]
  · split
    · norm_num [RecentPlusEntry.MENUMATCH, RecentPlusEntry.PREFIXMATCH]
    · exact hf

/-! ## Claim theorems -/

/-- C2: For every starting history and `(label, parent_label)` pair,
`add_to_history` (the model of `CommandPaletteDialog.add_to_history`, whose
return value is exactly the list written to the persisted preference) never
produces more than `NUM_HISTORY = 5` entries; it puts the recorded pair at
index 0; re-recording a pair already present leaves the length unchanged; and
recording the same pair twice in a row yields the same history as recording it
once. -/
theorem add_to_history_spec (hist : List (String × String)) (label parent_label : String) :
    (add_to_history hist label parent_label).length ≤ NUM_HISTORY ∧
    (add_to_history hist label parent_label).head? = some (label, parent_label) ∧
    ((label, parent_label) ∈ hist → hist.length ≤ NUM_HISTORY →
      (add_to_history hist label parent_label).length = hist.length) ∧
    add_to_history (add_to_history hist label parent_label) label parent_label =
      add_to_history hist label parent_label := by
  refine ⟨?_, ?_, ?_, ?_⟩
  · simp only [add_to_history, NUM_HISTORY, List.length_take]
    omega
  · simp only [add_to_history, NUM_HISTORY]
    rw [show (5 : Nat) = 4 + 1 from rfl, List.take_succ_cons]
    rfl
  · intro hm hlen
    have h1 : (hist.erase (label, parent_label)).length = hist.length - 1 :=
      List.length_erase_of_mem hm
    have h2 : 0 < hist.length := List.length_pos.mpr (List.ne_nil_of_mem hm)
    simp only [NUM_HISTORY] at hlen
    simp only [add_to_history, NUM_HISTORY, List.length_take, List.length_cons, h1]
    omega
  · have hstep : add_to_history hist label parent_label =
        (label, parent_label) :: (hist.erase (label, parent_label)).take 4 := by
      simp only [add_to_history, NUM_HISTORY]
      rw [show (5 : Nat) = 4 + 1 from rfl, List.take_succ_cons]
    rw [hstep]
    simp only [add_to_history, NUM_HISTORY]
    rw [List.erase_cons_head]
    rw [show (5 : Nat) = 4 + 1 from rfl, List.take_succ_cons, List.take_take]
    norm_num

/-- Witness for C2 at a concrete history. -/
theorem add_to_history_spec_witness :
    ("a", "m") ∈ [("a", "m"), ("b", "m")] ∧
    (add_to_history [("a", "m"), ("b", "m")] "a" "m").length = 2 := by
  refine ⟨by decide, ?_⟩
  have h := (add_to_history_spec [("a", "m"), ("b", "m")] "a" "m").2.2.1
    (by decide) (by decide)
  simpa using h

/-- C5 counterexample: scoring a concrete entry against the empty query yields
exactly the strong prefix-match score 100 (`"open".startswith("")` is true in
Python), so the empty-query score is not distinct from `PREFIXMATCH`. -/
theorem score_empty_query_counterexample :
    score_command fuzzy_model "" ⟨"Open", "File", ""⟩ = RecentPlusEntry.PREFIXMATCH := by
  decide

/-- C5 amended: for every fuzzy scorer and every entry, any query that
lower-cases and trims to the empty string scores as `PREFIXMATCH = 100`
(uniformly for all entries, so ordering falls to the remaining sort-key
components), rather than as a neutral score distinct from 100. -/
theorem score_empty_query_prefix (fuzzy : String → String → Int) (query : String)
    (e : EntryMetadata) (hq : strTrim (strLower query) = "") :
    score_command fuzzy (strTrim (strLower query)) e = RecentPlusEntry.PREFIXMATCH := by
  rw [hq]
  rfl

/-- Witness for C5 at the whitespace query. -/
theorem score_empty_query_prefix_witness :
    strTrim (strLower "  ") = "" ∧
    score_command fuzzy_model (strTrim (strLower "  ")) ⟨"Open", "File", ""⟩ =
      RecentPlusEntry.PREFIXMATCH :=
  ⟨by decide, score_empty_query_prefix fuzzy_model "  " ⟨"Open", "File", ""⟩ (by decide)⟩

/-- C6: on both platforms the candidate display shortcut `"F1"` is rejected at
the reserved-for-Help rule (it passes the modifier rule because it is a plain
function key), while `"Ctrl+F1"` passes every modifier and reservation rule. -/
theorem validate_f1_reserved_ctrl_f1_passes :
    ∀ mac : Bool, validateDisplayShortcut mac "F1" = some ShortcutError.f1Reserved ∧
      validateDisplayShortcut mac "Ctrl+F1" = none := by
  intro mac
  cases mac <;> exact ⟨by decide, by decide⟩

/-- Clipboard reservation at the validation layer: on either platform, the
primary modifier combined with A, C, V or X is rejected as reserved. -/
theorem validate_clipboard (mac : Bool) (k : String) (hk : k ∈ ["A", "C", "V", "X"]) :
    validateDisplayShortcut mac (ctrlCmd mac ++ "+" ++ k) =
      some ShortcutError.clipboardReserved := by
  simp only [List.mem_cons, List.not_mem_nil, or_false] at hk
  rcases hk with rfl | rfl | rfl | rfl <;> cases mac <;> decide

/-- C7: for every entry, state and platform, committing a candidate whose
display form is the platform's primary clipboard/select-all shortcut (primary
modifier plus A, C, V or X; on non-Mac platforms the copy shortcut is the
literal `"Ctrl+C"`) fails and leaves the state unchanged: the four canonical
clipboard shortcuts can never be committed. -/
theorem apply_changes_clipboard_reserved (env : ShortcutEnv) (st : EditState)
    (cmd : EntryMetadata) (ns : String) (cR cMK : Bool) (k : String)
    (hk : k ∈ ["A", "C", "V", "X"])
    (hds : env.display ns = ctrlCmd env.is_mac ++ "+" ++ k) :
    apply_changes env st cmd ns cR cMK = (false, st) := by
  have hval := validate_clipboard env.is_mac k hk
  rw [← hds] at hval
  simp only [apply_changes, hval]

/-- Witness for C7: `"Ctrl+C"` on a non-Mac platform. -/
theorem apply_changes_clipboard_reserved_witness :
    ("C" ∈ ["A", "C", "V", "X"]) ∧
    apply_changes ⟨false, id, fun _ => true, []⟩ ⟨[], []⟩ ⟨"x", "m", ""⟩ "Ctrl+C"
      true true = (false, ⟨[], []⟩) :=
  ⟨by decide,
    apply_changes_clipboard_reserved ⟨false, id, fun _ => true, []⟩ ⟨[], []⟩
      ⟨"x", "m", ""⟩ "Ctrl+C" true true "C" (by decide) (by decide)⟩

/-- C9: releasing a key only ever shrinks the pressed-modifier set and losing
focus clears it; in both cases the captured accelerator string and its display
variable are unchanged. Releasing a modifier removes that identifier and leaves
every other identifier's membership intact; releasing a non-modifier key
changes nothing. -/
theorem key_release_focus_out_frame (st : EditDialogState) (k : String) :
    (key_release st k).shortcut = st.shortcut ∧
    (key_release st k).shortcut_display = st.shortcut_display ∧
    (focus_out st).shortcut = st.shortcut ∧
    (focus_out st).shortcut_display = st.shortcut_display ∧
    (focus_out st).pressed_modifiers = [] ∧
    (k ∈ MODIFIER_KEYSYMS →
      k ∉ (key_release st k).pressed_modifiers ∧
      ∀ m, m ≠ k →
        (m ∈ (key_release st k).pressed_modifiers ↔ m ∈ st.pressed_modifiers)) ∧
    (k ∉ MODIFIER_KEYSYMS → key_release st k = st) := by
  refine ⟨?_, ?_, rfl, rfl, rfl, ?_, ?_⟩
  · unfold key_release
    split <;> rfl
  · unfold key_release
    split <;> rfl
  · intro hk
    constructor
    · simp [key_release, hk, List.mem_filter]
    · intro m hm
      simp [key_release, hk, List.mem_filter, hm]
  · intro hk
    simp [key_release, hk]

/-- Witness for C9: releasing `Control_L` removes it from the pressed set. -/
theorem key_release_focus_out_frame_witness :
    ("Control_L" ∈ MODIFIER_KEYSYMS) ∧
    "Control_L" ∉
      (key_release ⟨["Shift_L", "Control_L"], "Ctrl+X", "Ctrl+X"⟩
        "Control_L").pressed_modifiers :=
  ⟨by decide,
    ((key_release_focus_out_frame ⟨["Shift_L", "Control_L"], "Ctrl+X", "Ctrl+X"⟩
      "Control_L").2.2.2.2.2.1 (by decide)).1⟩

/-- C10: evaluating the code at the failing input. With a single command that
is also in the history and the empty query, `update_list` produces the two-row
list `[command, separator]` (the separator is the last row) and the selection
starts at index 0; moving the selection down by one then hits the
separator-skip step, which indexes one past the end of the row sequence —
Python raises `IndexError` (modelled by `MoveOutcome.indexError`). -/
theorem move_in_list_separator_last_index_error :
    update_list fuzzy_model [("c", "m")] [⟨"c", "m", ""⟩] "" =
      [⟨0, ⟨"c", "m", ""⟩⟩, ⟨RecentPlusEntry.SEPARATOR, sepEntry⟩] ∧
    move_in_list (update_list fuzzy_model [("c", "m")] [⟨"c", "m", ""⟩] "") true 0 1 =
      MoveOutcome.indexError :=
  ⟨by decide, by decide⟩

/-- C8 counterexample: on a non-Mac platform, with top-level menu `"~File"`
(access key `F`), committing the candidate `"Alt+F"` to an entry that already
holds that very shortcut succeeds (`apply_changes` returns `True`) even though
both confirmation answers are refusals: the menu-access-key check is skipped
whenever any entry currently holds the candidate (`not shortcut_used`,
line 1504), so the claim's unconditional confirmation requirement fails. -/
theorem apply_changes_alt_menu_counterexample :
    (apply_changes ⟨false, id, fun _ => true, ["~File"]⟩
        ⟨[⟨"cmdx", "menux", "Alt+F"⟩], []⟩ ⟨"cmdx", "menux", "Alt+F"⟩ "Alt+F"
        false false).1 = true ∧
    altSingle "Alt+F" = some 'F' ∧
    (["~File"].any fun m => strIn (String.mk ['~', 'F']) m) = true :=
  ⟨by decide, by decide, by decide⟩

/-- C8 amended: on non-Mac platforms, when no entry currently holds the
candidate's display shortcut (otherwise the reassignment path governs
confirmation), a candidate of the form `Alt+<char>` whose character matches a
top-level menu's `~` access key can only be committed after the user confirms:
with the confirmation refused, `apply_changes` aborts with the state completely
unchanged. -/
theorem apply_changes_alt_menu_requires_confirm (env : ShortcutEnv) (st : EditState)
    (cmd : EntryMetadata) (ns : String) (cR : Bool) (c : Char)
    (hmac : env.is_mac = false)
    (hfind : metadata_from_shortcut env.display st.entries (env.display ns) = none)
    (halt : altSingle (env.display ns) = some c)
    (hmenu : (env.topMenus.any fun m => strIn (String.mk ['~', c]) m) = true) :
    apply_changes env st cmd ns cR false = (false, st) := by
  simp only [apply_changes]
  cases hv : validateDisplayShortcut env.is_mac (env.display ns) with
  | some e => rfl
  | none =>
    by_cases hb : ns ≠ "" ∧ ¬ env.bindable ns = true
    · rw [if_pos hb]
    · rw [if_neg hb, hfind, halt]
      simp [hmac, hmenu]

/-- Witness for the amended C8. -/
theorem apply_changes_alt_menu_requires_confirm_witness :
    metadata_from_shortcut id [⟨"cmdx", "menux", ""⟩] "Alt+F" = none ∧
    apply_changes ⟨false, id, fun _ => true, ["~File"]⟩ ⟨[⟨"cmdx", "menux", ""⟩], []⟩
      ⟨"cmdx", "menux", ""⟩ "Alt+F" true false =
      (false, ⟨[⟨"cmdx", "menux", ""⟩], []⟩) :=
  ⟨by decide,
    apply_changes_alt_menu_requires_confirm ⟨false, id, fun _ => true, ["~File"]⟩
      ⟨[⟨"cmdx", "menux", ""⟩], []⟩ ⟨"cmdx", "menux", ""⟩ "Alt+F" true 'F'
      (by decide) (by decide) (by decide) (by decide)⟩

theorem mem_suppressLeadingSep {x : RecentPlusEntry} {l : List RecentPlusEntry}
    (hx : x ∈ suppressLeadingSep l) : x ∈ l := by
  cases l with
  | nil => simpa [suppressLeadingSep] using hx
  | cons s rest =>
    simp only [suppressLeadingSep] at hx
    split at hx
    · exact List.mem_cons_of_mem _ hx
    · exact hx

theorem pairwise_suppressLeadingSep {R : RecentPlusEntry → RecentPlusEntry → Prop}
    {l : List RecentPlusEntry} (hl : l.Pairwise R) :
    (suppressLeadingSep l).Pairwise R := by
  cases l with
  | nil => simpa [suppressLeadingSep] using hl
  | cons s rest =>
    simp only [suppressLeadingSep]
    split
    · exact hl.of_cons
    · exact hl

theorem countP_baseEntries (hist : List (String × String))
    (commands : List EntryMetadata) :
    (baseEntries hist commands).countP isSepRow ≤ 1 := by
  rw [baseEntries, List.countP_append]
  have hmap : (commands.map fun c =>
      (⟨RecentPlusEntry.NONRECENT, c⟩ : RecentPlusEntry)).countP isSepRow = 0 := by
    rw [List.countP_map]
    have hfun : (isSepRow ∘ fun c => (⟨RecentPlusEntry.NONRECENT, c⟩ : RecentPlusEntry)) =
        fun _ => false := by
      funext c
      simp [isSepRow, Function.comp, RecentPlusEntry.NONRECENT, RecentPlusEntry.SEPARATOR]
    rw [hfun]
    simp
  by_cases he : hist.isEmpty <;> simp [he, hmap, isSepRow]

/-- C4: for every fuzzy scorer, history (of at most `NUM_HISTORY` pairs, the
capacity the data model guarantees), command set and query, the first row of
the final displayed sequence is never the separator: the separator wrapper is
added only when the history is non-empty, and a leading separator produced by
the sort is suppressed and removed. -/
theorem update_list_separator_not_first (fuzzy : String → String → Int)
    (hist : List (String × String)) (commands : List EntryMetadata) (query : String)
    (hlen : hist.length ≤ NUM_HISTORY) :
    ∀ x, (update_list fuzzy hist commands query).head? = some x →
      x.recentness ≠ RecentPlusEntry.SEPARATOR := by
  intro x hx
  simp only [update_list] at hx
  have hcount : (sortLe (paletteLe fuzzy (strTrim (strLower query)))
      (assignRecent 0 hist (baseEntries hist commands))).countP isSepRow ≤ 1 := by
    rw [(perm_sortLe _ _).countP_eq isSepRow]
    refine le_trans (countP_assignRecent_le hist 0 _ ?_) (countP_baseEntries hist commands)
    intro j hj
    simp only [NUM_HISTORY] at hlen
    simp only [RecentPlusEntry.SEPARATOR]
    omega
  generalize hGen : sortLe (paletteLe fuzzy (strTrim (strLower query)))
      (assignRecent 0 hist (baseEntries hist commands)) = L at hx hcount
  cases L with
  | nil => simp [suppressLeadingSep] at hx
  | cons s rest =>
    simp only [suppressLeadingSep] at hx
    by_cases hsep : s.recentness = RecentPlusEntry.SEPARATOR
    · rw [if_pos hsep] at hx
      have hseptrue : isSepRow s = true := by simp [isSepRow, hsep]
      have hrest : rest.countP isSepRow = 0 := by
        rw [List.countP_cons, hseptrue] at hcount
        have h1 : rest.countP isSepRow + 1 ≤ 1 := by simpa using hcount
        omega
      have hxmem : x ∈ rest := by
        cases rest with
        | nil => simp at hx
        | cons a t =>
          have : a = x := by simpa using hx
          rw [← this]
          exact List.mem_cons_self _ _
      have hns := List.countP_eq_zero.mp hrest x hxmem
      simpa [isSepRow] using hns
    · rw [if_neg hsep] at hx
      have : s = x := by simpa using hx
      rw [← this]
      exact hsep

/-- Witness for C4 at a concrete palette state. -/
theorem update_list_separator_not_first_witness :
    ([("c", "m")] : List (String × String)).length ≤ NUM_HISTORY ∧
    ∀ x, (update_list fuzzy_model [("c", "m")] [⟨"c", "m", ""⟩] "").head? = some x →
      x.recentness ≠ RecentPlusEntry.SEPARATOR :=
  ⟨by decide,
    update_list_separator_not_first fuzzy_model [("c", "m")] [⟨"c", "m", ""⟩] ""
      (by decide)⟩

/-- C3 counterexample: with empty history and query `"bbb aaa"`, entry
`A = ("bbb aaa x", menu "m1")` has a label starting with the query while
`B = ("aaa", menu "bbb")` does not (the query is not even a substring of B's
label and B's menu does not start with it), yet the ranking places B at
index 0, strictly above A at index 1: the fuzzy fallback gives B the full
score 100 because the query coincides with B's combined "menu label" string —
any similarity measure, the real third-party scorer included, returns 100 on
identical strings — and the alphabetical tie-break then favours B. -/
theorem update_list_prefix_rank_counterexample :
    strStarts (strLower (displayLabel ⟨"bbb aaa x", "m1", ""⟩))
      (strTrim (strLower "bbb aaa")) = true ∧
    strStarts (strLower (displayLabel ⟨"aaa", "bbb", ""⟩))
      (strTrim (strLower "bbb aaa")) = false ∧
    (update_list fuzzy_model [] [⟨"bbb aaa x", "m1", ""⟩, ⟨"aaa", "bbb", ""⟩]
      "bbb aaa").get? 0 = some ⟨RecentPlusEntry.NONRECENT, ⟨"aaa", "bbb", ""⟩⟩ ∧
    (update_list fuzzy_model [] [⟨"bbb aaa x", "m1", ""⟩, ⟨"aaa", "bbb", ""⟩]
      "bbb aaa").get? 1 = some ⟨RecentPlusEntry.NONRECENT, ⟨"bbb aaa x", "m1", ""⟩⟩ :=
  ⟨by decide, by decide, by decide, by decide⟩

/-- C3 amended: for every fuzzy scorer, query Q and command entries A and B
neither of which is in the recency history (and B is not the separator
sentinel), if A's display label starts with Q (lower-cased, trimmed), B's does
not, and B's fuzzy fallback score against Q is strictly below the prefix score
100, then every displayed occurrence of A is strictly above every displayed
occurrence of B. -/
theorem update_list_prefix_ranks_above (fuzzy : String → String → Int)
    (hist : List (String × String)) (commands : List EntryMetadata) (query : String)
    (A B : EntryMetadata)
    (hA : strStarts (strLower (displayLabel A)) (strTrim (strLower query)) = true)
    (hB : strStarts (strLower (displayLabel B)) (strTrim (strLower query)) = false)
    (hAh : (A.label, A.parent_label) ∉ hist)
    (hBh : (B.label, B.parent_label) ∉ hist)
    (hBsep : B ≠ sepEntry)
    (hfuzzB : fuzzy (strTrim (strLower query))
        (strLower (displayParentLabel B) ++ " " ++ strLower (displayLabel B)) <
      RecentPlusEntry.PREFIXMATCH) :
    ∀ i j x y, (update_list fuzzy hist commands query).get? i = some x →
      (update_list fuzzy hist commands query).get? j = some y →
      x.entry = A → y.entry = B → i < j := by
  intro i j x y hxi hyj hxA hyB
  have hperm := perm_sortLe (paletteLe fuzzy (strTrim (strLower query)))
    (assignRecent 0 hist (baseEntries hist commands))
  have hpair : (update_list fuzzy hist commands query).Pairwise
      (fun a b => paletteLe fuzzy (strTrim (strLower query)) a b = true) := by
    simp only [update_list]
    refine pairwise_suppressLeadingSep (pairwise_sortLe ?_ ?_ _)
    · intro a b c h1 h2
      exact keyLe_trans _ _ _ h1 h2
    · intro a b
      exact keyLe_total _ _
  have hxmem : x ∈ assignRecent 0 hist (baseEntries hist commands) := by
    have h1 : x ∈ update_list fuzzy hist commands query := List.get?_mem hxi
    simp only [update_list] at h1
    exact hperm.mem_iff.mp (mem_suppressLeadingSep h1)
  have hymem : y ∈ assignRecent 0 hist (baseEntries hist commands) := by
    have h1 : y ∈ update_list fuzzy hist commands query := List.get?_mem hyj
    simp only [update_list] at h1
    exact hperm.mem_iff.mp (mem_suppressLeadingSep h1)
  have hxbase : x ∈ baseEntries hist commands :=
    mem_assignRecent_of_not_recent hxmem (by rw [hxA]; exact hAh)
  have hybase : y ∈ baseEntries hist commands :=
    mem_assignRecent_of_not_recent hymem (by rw [hyB]; exact hBh)
  have hbase_char : ∀ z ∈ baseEntries hist commands,
      (z.recentness = RecentPlusEntry.SEPARATOR ∧ z.entry = sepEntry) ∨
        z.recentness = RecentPlusEntry.NONRECENT := by
    intro z hz
    rw [baseEntries, List.mem_append] at hz
    rcases hz with hz | hz
    · left
      by_cases he : hist.isEmpty
      · simp [he] at hz
      · simp [he] at hz
        rw [hz]
        exact ⟨rfl, rfl⟩
    · right
      rw [List.mem_map] at hz
      obtain ⟨c, _, hc⟩ := hz
      rw [← hc]
  have hyrec : y.recentness = RecentPlusEntry.NONRECENT := by
    rcases hbase_char y hybase with ⟨_, hsep_ent⟩ | h
    · rw [hyB] at hsep_ent
      exact absurd hsep_ent hBsep
    · exact h
  have hscoreA : score_command fuzzy (strTrim (strLower query)) A =
      RecentPlusEntry.PREFIXMATCH := by
    simp [score_command, hA]
  have hscoreB : score_command fuzzy (strTrim (strLower query)) B <
      RecentPlusEntry.PREFIXMATCH :=
    score_command_lt_prefix fuzzy (strTrim (strLower query)) B hB hfuzzB
  have hky : recent_key fuzzy (strTrim (strLower query)) y =
      (2, -(score_command fuzzy (strTrim (strLower query)) B),
        RecentPlusEntry.NONRECENT, strLower (displayLabel B)) := by
    rw [recent_key_nonrecent fuzzy _ hyrec, hyB]
  have hkle : paletteLe fuzzy (strTrim (strLower query)) y x = false := by
    rcases hbase_char x hxbase with ⟨hxsep, _⟩ | hxrec
    · have hkx := recent_key_sep fuzzy (strTrim (strLower query)) hxsep
      rw [paletteLe, hky, hkx]
      exact keyLe_false_of_fst_lt (by omega)
    · have hkx := recent_key_nonrecent fuzzy (strTrim (strLower query)) hxrec
      rw [paletteLe, hky, hkx, hxA]
      refine keyLe_false_of_snd_lt ?_
      rw [hscoreA]
      simp only [RecentPlusEntry.PREFIXMATCH] at hscoreB ⊢
      omega
  exact pairwise_index_lt hpair hxi hyj hkle (keyLe_refl _)

/-- Witness for the amended C3 at a concrete palette state. -/
theorem update_list_prefix_ranks_above_witness :
    (update_list fuzzy_model [] [⟨"Open", "File", ""⟩, ⟨"Close", "File", ""⟩]
      "op").get? 0 = some ⟨RecentPlusEntry.NONRECENT, ⟨"Open", "File", ""⟩⟩ ∧
    (update_list fuzzy_model [] [⟨"Open", "File", ""⟩, ⟨"Close", "File", ""⟩]
      "op").get? 1 = some ⟨RecentPlusEntry.NONRECENT, ⟨"Close", "File", ""⟩⟩ ∧
    (0 : Nat) < 1 :=
  ⟨by decide, by decide,
    update_list_prefix_ranks_above fuzzy_model []
      [⟨"Open", "File", ""⟩, ⟨"Close", "File", ""⟩] "op"
      ⟨"Open", "File", ""⟩ ⟨"Close", "File", ""⟩
      (by decide) (by decide) (by decide) (by decide) (by decide) (by decide)
      0 1 ⟨RecentPlusEntry.NONRECENT, ⟨"Open", "File", ""⟩⟩
      ⟨RecentPlusEntry.NONRECENT, ⟨"Close", "File", ""⟩⟩
      (by decide) (by decide) rfl rfl⟩

/-- C1: conflict resolution in `apply_changes`. If the candidate passes the
validation rules and the bind test, another entry `Y` (with a different
menu/label assignment than the edited entry `X`) currently holds the
candidate's display shortcut, and both entries are in the registry, then:
refusing the confirmation aborts with the state — registry and persisted
table — completely unchanged; confirming succeeds, `Y`'s registry shortcut
becomes empty, `X`'s becomes the new value, and the persisted table saved in
that same commit maps `Y`'s key to the empty string and `X`'s key to the new
shortcut. -/
theorem apply_changes_conflict_resolution (env : ShortcutEnv) (st : EditState)
    (X Y : EntryMetadata) (ns : String) (cMK : Bool)
    (hval : validateDisplayShortcut env.is_mac (env.display ns) = none)
    (hbind : env.bindable ns = true)
    (hfind : metadata_from_shortcut env.display st.entries (env.display ns) = some Y)
    (hdiff : assignOf Y ≠ assignOf X)
    (hX : findEntry X.label X.parent_label st.entries = some X)
    (hY : findEntry Y.label Y.parent_label st.entries = some Y) :
    (apply_changes env st X ns false cMK = (false, st)) ∧
    ((apply_changes env st X ns true cMK).1 = true ∧
      findEntry Y.label Y.parent_label (apply_changes env st X ns true cMK).2.entries =
        some { Y with shortcut := "" } ∧
      findEntry X.label X.parent_label (apply_changes env st X ns true cMK).2.entries =
        some { X with shortcut := ns } ∧
      List.lookup (Y.label, Y.parent_label) (apply_changes env st X ns true cMK).2.saved =
        some "" ∧
      List.lookup (X.label, X.parent_label) (apply_changes env st X ns true cMK).2.saved =
        some ns) := by
  have hkeysYX : ¬(Y.label = X.label ∧ Y.parent_label = X.parent_label) := by
    rintro ⟨h1, h2⟩
    apply hdiff
    simp [assignOf, displayLabel, displayParentLabel, h1, h2]
  have hkeysXY : ¬(X.label = Y.label ∧ X.parent_label = Y.parent_label) := by
    rintro ⟨h1, h2⟩
    exact hkeysYX ⟨h1.symm, h2.symm⟩
  have hb : ¬(ns ≠ "" ∧ ¬ env.bindable ns = true) := by simp [hbind]
  have hred : ∀ cR : Bool, apply_changes env st X ns cR cMK =
      (if ¬ cR then (false, st)
       else commitShortcut X ns (setEntryShortcut Y.label Y.parent_label "" st.entries)
         (set_shortcut Y.label Y.parent_label "" st.saved)) := by
    intro cR
    simp only [apply_changes, hval, hfind]
    rw [if_neg hb, if_pos hdiff]
  constructor
  · rw [hred false]
    simp
  · have h1 : apply_changes env st X ns true cMK =
        commitShortcut X ns (setEntryShortcut Y.label Y.parent_label "" st.entries)
          (set_shortcut Y.label Y.parent_label "" st.saved) := by
      rw [hred true]
      simp
    rw [h1]
    simp only [commitShortcut]
    refine ⟨by simp, ?_, ?_, ?_, ?_⟩
    · rw [findEntry_setEntryShortcut, findEntry_setEntryShortcut, hY]
      simp [hkeysYX]
    · rw [findEntry_setEntryShortcut, findEntry_setEntryShortcut, hX]
      simp [hkeysXY]
    · have hpair : ((Y.label, Y.parent_label) : String × String) ≠
          (X.label, X.parent_label) := by
        simpa [Prod.ext_iff] using hkeysYX
      rw [lookup_set_shortcut_other _ _ _ _ hpair, lookup_set_shortcut_same]
    · rw [lookup_set_shortcut_same]

/-- Witness for C1 at a concrete registry and table. -/
theorem apply_changes_conflict_resolution_witness :
    apply_changes ⟨false, id, fun _ => true, []⟩
      ⟨[⟨"x", "m", ""⟩, ⟨"y", "m", "Ctrl+K"⟩], []⟩ ⟨"x", "m", ""⟩ "Ctrl+K" false true =
      (false, ⟨[⟨"x", "m", ""⟩, ⟨"y", "m", "Ctrl+K"⟩], []⟩) ∧
    List.lookup ("y", "m")
      (apply_changes ⟨false, id, fun _ => true, []⟩
        ⟨[⟨"x", "m", ""⟩, ⟨"y", "m", "Ctrl+K"⟩], []⟩ ⟨"x", "m", ""⟩ "Ctrl+K" true
        true).2.saved = some "" ∧
    List.lookup ("x", "m")
      (apply_changes ⟨false, id, fun _ => true, []⟩
        ⟨[⟨"x", "m", ""⟩, ⟨"y", "m", "Ctrl+K"⟩], []⟩ ⟨"x", "m", ""⟩ "Ctrl+K" true
        true).2.saved = some "Ctrl+K" := by
  have h := apply_changes_conflict_resolution ⟨false, id, fun _ => true, []⟩
    ⟨[⟨"x", "m", ""⟩, ⟨"y", "m", "Ctrl+K"⟩], []⟩ ⟨"x", "m", ""⟩ ⟨"y", "m", "Ctrl+K"⟩
    "Ctrl+K" true (by decide) (by decide) (by decide) (by decide) (by decide) (by decide)
  exact ⟨h.1, h.2.2.2.2.1, h.2.2.2.2.2⟩
